import Mathlib

/-!
Shallow embedding of the pangolin-auto-whitelist script (src/auth-api.py).

The script maintains a time-limited IP allow-list: it loads a persisted
state (a byte offset into a log file plus a map from IP to rule record),
prunes expired rules by calling a remote delete endpoint, scans newly
appended log lines for login events, creates a rule for each previously
unseen IP via a remote create endpoint, and saves the state atomically.

Strings are modelled as lists of characters; timestamps as integers;
the remote HTTP service as oracles (a response per call).  Python
exceptions that escape the handlers in the source are modelled with an
explicit error type, since they abort the run.
-/

set_option maxRecDepth 4000

namespace AuthApi

/-- The opening brace that introduces a JSON object. -/
def lbraceC : Char := '{'

/-- The closing brace that ends a JSON object. -/
def rbraceC : Char := '}'

/-- The opening bracket that introduces a JSON array. -/
def lbrackC : Char := '['

/-- The closing bracket that ends a JSON array. -/
def rbrackC : Char := ']'

/-- The double quote that delimits a JSON string. -/
def quoteC : Char := '"'

/-- The backslash that introduces a JSON string escape. -/
def backslashC : Char := '\\'

/-- The single quote used by the Python repr of containers. -/
def squoteC : Char := '\''

/-- Python exceptions that are not caught by the handlers in the source
and therefore abort the run. -/
inductive PyErr where
  | typeError
  | attributeError
deriving DecidableEq

/-- UTF-8 encoded size of one character, as computed by
Python str.encode on the corresponding code point. -/
def utf8CharLen (c : Char) : Nat :=
  if c.toNat < 128 then 1
  else if c.toNat < 2048 then 2
  else if c.toNat < 65536 then 3
  else 4

/-- UTF-8 encoded size of a string: Python len(line.encode("utf-8")). -/
def utf8Len : List Char → Nat
  | [] => 0
  | c :: cs => utf8CharLen c + utf8Len cs

/-- Does the first list occur as a leading segment of the second
(Python str.startswith, used to define substring search)? -/
def leadsWith : List Char → List Char → Bool
  | [], _ => true
  | _ :: _, [] => false
  | a :: as, b :: bs => if a = b then leadsWith as bs else false

/-- Python substring containment: pat in s. -/
def isSubstring (pat : List Char) : List Char → Bool
  | [] => leadsWith pat []
  | c :: cs => leadsWith pat (c :: cs) || isSubstring pat cs

/-- Python str.index for a single character: position of the first
occurrence, or none (where Python raises ValueError). -/
def firstIdx (c : Char) : List Char → Option Nat
  | [] => none
  | a :: as =>
    if a = c then some 0
    else match firstIdx c as with
      | some i => some (i + 1)
      | none => none

/-- Python str.rindex for a single character: position of the last
occurrence, or none (where Python raises ValueError). -/
def lastIdx (c : Char) : List Char → Option Nat
  | [] => none
  | a :: as =>
    match lastIdx c as with
    | some i => some (i + 1)
    | none => if a = c then some 0 else none

/-- First segment of Python s.split(sep): everything before the first
separator (s.split(sep)[0], always defined). -/
def splitHead (sep : Char) : List Char → List Char
  | [] => []
  | c :: cs => if c = sep then [] else c :: splitHead sep cs

/-- JSON values as produced by Python json.loads.  Numbers are
restricted to integers; the log and API payloads relevant here use
none other. -/
inductive JsonValue where
  | null
  | bool (b : Bool)
  | num (n : Int)
  | str (s : List Char)
  | arr (items : List JsonValue)
  | obj (fields : List (List Char × JsonValue))

/-- Python dict lookup on the field list built by json.loads: with
duplicate keys the later entry wins, as in CPython. -/
def lookupField (key : List Char) : List (List Char × JsonValue) → Option JsonValue
  | [] => none
  | (k, v) :: rest =>
    match lookupField key rest with
    | some r => some r
    | none => if k = key then some v else none

/-- Whitespace skipping of the JSON grammar (space, tab, newline, return). -/
def skipWs : List Char → List Char
  | [] => []
  | c :: cs =>
    if c = ' ' ∨ c = '\t' ∨ c = '\n' ∨ c = '\r' then skipWs cs else c :: cs

/-- JSON string escapes recognised here: quote, backslash, slash,
b, f, n, r, t.  The \u escape is not modelled; none of the payloads
exercised below contains one. -/
def escChar (e : Char) : Option Char :=
  if e = quoteC then some quoteC
  else if e = backslashC then some backslashC
  else if e = '/' then some '/'
  else if e = 'b' then some (Char.ofNat 8)
  else if e = 'f' then some (Char.ofNat 12)
  else if e = 'n' then some '\n'
  else if e = 'r' then some '\r'
  else if e = 't' then some '\t'
  else none

/-- Body of a JSON string after the opening quote: returns the decoded
characters and the remainder after the closing quote. -/
def parseStringBody : Nat → List Char → Option (List Char × List Char)
  | 0, _ => none
  | _, [] => none
  | fuel + 1, c :: cs =>
    if c = quoteC then some ([], cs)
    else if c = backslashC then
      match cs with
      | [] => none
      | e :: cs2 =>
        match escChar e with
        | none => none
        | some ec =>
          match parseStringBody fuel cs2 with
          | some (body, rest) => some (ec :: body, rest)
          | none => none
    else
      match parseStringBody fuel cs with
      | some (body, rest) => some (c :: body, rest)
      | none => none

/-- Leading run of decimal digits. -/
def takeDigits : List Char → List Char × List Char
  | [] => ([], [])
  | c :: cs =>
    if 48 ≤ c.toNat ∧ c.toNat ≤ 57 then
      match takeDigits cs with
      | (ds, rest) => (c :: ds, rest)
    else ([], c :: cs)

def isDigitC (c : Char) : Bool := decide (48 ≤ c.toNat ∧ c.toNat ≤ 57)

def digitsToNat (ds : List Char) : Nat :=
  ds.foldl (fun a c => a * 10 + (c.toNat - 48)) 0

/-- Does the remainder continue a number with a fraction or exponent?
Such numbers are floats; they do not occur in the payloads relevant
here, and the model treats them as parse failures. -/
def startsFracExp : List Char → Bool
  | [] => false
  | c :: _ => decide (c = '.' ∨ c = 'e' ∨ c = 'E')

/-- Literal continuation check: true / false / null keywords. -/
def matchLit : List Char → List Char → Option (List Char)
  | [], s => some s
  | l :: ls, c :: cs => if c = l then matchLit ls cs else none
  | _ :: _, [] => none

mutual

/-- Recursive descent JSON value parser (model of Python json.loads).
Fuel decreases at each nested value; callers supply length-based fuel,
which suffices because every recursive call consumes input. -/
def parseVal : Nat → List Char → Option (JsonValue × List Char)
  | 0, _ => none
  | fuel + 1, s =>
    match skipWs s with
    | [] => none
    | c :: cs =>
      if c = lbraceC then
        match skipWs cs with
        | [] => none
        | d :: ds =>
          if d = rbraceC then some (JsonValue.obj [], ds)
          else
            match parseMembers fuel (d :: ds) with
            | some (fields, rest) => some (JsonValue.obj fields, rest)
            | none => none
      else if c = lbrackC then
        match skipWs cs with
        | [] => none
        | d :: ds =>
          if d = rbrackC then some (JsonValue.arr [], ds)
          else
            match parseItems fuel (d :: ds) with
            | some (items, rest) => some (JsonValue.arr items, rest)
            | none => none
      else if c = quoteC then
        match parseStringBody (cs.length + 1) cs with
        | some (body, rest) => some (JsonValue.str body, rest)
        | none => none
      else if c = 't' then
        match matchLit [ 'r', 'u', 'e' ] cs with
        | some rest => some (JsonValue.bool true, rest)
        | none => none
      else if c = 'f' then
        match matchLit [ 'a', 'l', 's', 'e' ] cs with
        | some rest => some (JsonValue.bool false, rest)
        | none => none
      else if c = 'n' then
        match matchLit [ 'u', 'l', 'l' ] cs with
        | some rest => some (JsonValue.null, rest)
        | none => none
      else if c = '-' then
        match takeDigits cs with
        | ([], _) => none
        | (ds, rest) =>
          if startsFracExp rest then none
          else some (JsonValue.num (-(digitsToNat ds : Int)), rest)
      else if isDigitC c then
        match takeDigits (c :: cs) with
        | (ds, rest) =>
          if startsFracExp rest then none
          else some (JsonValue.num (digitsToNat ds : Int), rest)
      else none

/-- Members of a JSON object after the opening brace (nonempty case). -/
def parseMembers : Nat → List Char → Option (List (List Char × JsonValue) × List Char)
  | 0, _ => none
  | fuel + 1, s =>
    match skipWs s with
    | [] => none
    | c :: cs =>
      if c = quoteC then
        match parseStringBody (cs.length + 1) cs with
        | none => none
        | some (key, rest) =>
          match skipWs rest with
          | [] => none
          | d :: ds =>
            if d = ':' then
              match parseVal fuel ds with
              | none => none
              | some (v, rest2) =>
                match skipWs rest2 with
                | [] => none
                | e :: es =>
                  if e = ',' then
                    match parseMembers fuel es with
                    | some (fields, rest3) => some ((key, v) :: fields, rest3)
                    | none => none
                  else if e = rbraceC then some ([(key, v)], es)
                  else none
            else none
      else none

/-- Items of a JSON array after the opening bracket (nonempty case). -/
def parseItems : Nat → List Char → Option (List JsonValue × List Char)
  | 0, _ => none
  | fuel + 1, s =>
    match parseVal fuel s with
    | none => none
    | some (v, rest) =>
      match skipWs rest with
      | [] => none
      | e :: es =>
        if e = ',' then
          match parseItems fuel es with
          | some (items, rest2) => some (v :: items, rest2)
          | none => none
        else if e = rbrackC then some ([v], es)
        else none

end

/-- Model of Python json.loads: parse one value and require only
whitespace afterwards; any failure is a JSONDecodeError in Python
and none here. -/
def json_loads (s : List Char) : Option JsonValue :=
  match parseVal (s.length + 1) s with
  | some (v, rest) => if skipWs rest = [] then some v else none
  | none => none

/-- Python truthiness of a JSON value (if rule_id: and if ip:). -/
def truthy : JsonValue → Bool
  | JsonValue.null => false
  | JsonValue.bool b => b
  | JsonValue.num n => decide (n ≠ 0)
  | JsonValue.str s => decide (s ≠ [])
  | JsonValue.arr xs => !xs.isEmpty
  | JsonValue.obj fs => !fs.isEmpty

/-- Python key in data.  On a dict it tests key presence, on a list it
tests element membership, on a string it tests substring containment;
on a number, boolean or null it raises TypeError — which
load_state does not catch. -/
def pyIn (key : List Char) : JsonValue → Except PyErr Bool
  | JsonValue.obj fields => Except.ok (fields.any (fun p => decide (p.1 = key)))
  | JsonValue.arr items =>
    Except.ok (items.any (fun x =>
      match x with
      | JsonValue.str s => decide (s = key)
      | _ => false))
  | JsonValue.str s => Except.ok (isSubstring key s)
  | _ => Except.error PyErr.typeError

/-- Python v.get(key, dfl) where dfl is passed in: defined on dicts,
AttributeError on anything else. -/
def pyGet (v : JsonValue) (key : List Char) (dfl : JsonValue) : Except PyErr JsonValue :=
  match v with
  | JsonValue.obj fields =>
    match lookupField key fields with
    | some x => Except.ok x
    | none => Except.ok dfl
  | _ => Except.error PyErr.attributeError

def natDigits : Nat → List Char → List Char
  | 0, acc => acc
  | n + 1, acc =>
    natDigits ((n + 1) / 10) (Char.ofNat (48 + (n + 1) % 10) :: acc)

/-- Decimal rendering of an integer (Python str on an int). -/
def intStr (n : Int) : List Char :=
  if n = 0 then [ '0' ]
  else if n < 0 then '-' :: natDigits (-n).toNat []
  else natDigits n.toNat []

def joinComma : List (List Char) → List Char
  | [] => []
  | [x] => x
  | x :: y :: rest => x ++ ',' :: ' ' :: joinComma (y :: rest)

/-- Python str of a JSON value, as used in str(rule_id).
Container rendering (repr with single quotes) is modelled to the fuel
depth; container identifiers are never exercised below. -/
def pyStrFuel : Nat → JsonValue → List Char
  | _, JsonValue.null => [ 'N', 'o', 'n', 'e' ]
  | _, JsonValue.bool true => [ 'T', 'r', 'u', 'e' ]
  | _, JsonValue.bool false => [ 'F', 'a', 'l', 's', 'e' ]
  | _, JsonValue.num n => intStr n
  | _, JsonValue.str s => s
  | 0, _ => []
  | fuel + 1, JsonValue.arr xs =>
    lbrackC :: joinComma (xs.map (fun x => pyStrFuel fuel x)) ++ [ rbrackC ]
  | fuel + 1, JsonValue.obj fs =>
    lbraceC ::
      joinComma (fs.map (fun p =>
        squoteC :: p.1 ++ squoteC :: ':' :: ' ' :: pyStrFuel fuel p.2)) ++ [ rbraceC ]

def pyStr (v : JsonValue) : List Char := pyStrFuel 100 v

-- ── Configuration constants of the script ────────────────────────────────

/-- TTL_MINUTES = 360; time is modelled in minutes as integers. -/
def TTL_MINUTES : Int := 360

def lastPositionKey : List Char := "last_position".toList

def rulesKey : List Char := "rules".toList

def requestIpKey : List Char := "requestIp".toList

def dataKey : List Char := "data".toList

def ruleIdKey : List Char := "ruleId".toList

def idKey : List Char := "id".toList

/-- The marker that classifies a log line as a login event. -/
def marker : List Char := "Exchange session: Badger sent ".toList

-- ── load_state ───────────────────────────────────────────────────────────

/-- Result of attempting to read the state file. -/
inductive FileRead where
  | absent
  | content (s : List Char)

/-- The default state dict of load_state. -/
def default_state : JsonValue :=
  JsonValue.obj [(lastPositionKey, JsonValue.num 0), (rulesKey, JsonValue.obj [])]

/-- load_state: parse the state file; on FileNotFoundError or
JSONDecodeError, or when either required key is missing, return the
default.  The key-membership tests run inside the try block but a
TypeError they raise is not among the caught exception classes, so it
propagates. -/
def load_state (fr : FileRead) : Except PyErr JsonValue :=
  match fr with
  | FileRead.absent => Except.ok default_state
  | FileRead.content s =>
    match json_loads s with
    | none => Except.ok default_state
    | some data =>
      match pyIn lastPositionKey data with
      | Except.error e => Except.error e
      | Except.ok false => Except.ok default_state
      | Except.ok true =>
        match pyIn rulesKey data with
        | Except.error e => Except.error e
        | Except.ok false => Except.ok default_state
        | Except.ok true => Except.ok data

-- ── save_state ───────────────────────────────────────────────────────────

/-- A flat file system: newest binding of a path shadows older ones. -/
def FSys : Type := List (List Char × List Char)

def getFile (fs : FSys) (p : List Char) : Option (List Char) :=
  match fs with
  | [] => none
  | (q, c) :: rest => if q = p then some c else getFile rest p

def writeFile (fs : FSys) (p c : List Char) : FSys := (p, c) :: fs

def removeFile (fs : FSys) (p : List Char) : FSys :=
  fs.filter (fun q => decide (q.1 ≠ p))

/-- os.replace src dst: atomically rename src over dst. -/
def osReplace (fs : FSys) (src dst : List Char) : FSys :=
  match getFile fs src with
  | some c => writeFile (removeFile fs src) dst c
  | none => fs

def tmpSuffix : List Char := ".tmp".toList

/-- Temporary path used by save_state: f with .tmp appended (same
directory, since the suffix contains no separator). -/
def tmpName (path : List Char) : List Char := path ++ tmpSuffix

/-- save_state: write the serialised state to path.tmp, then atomically
rename it over path.  The content argument stands for the json.dumps
serialisation of the state. -/
def save_state (path content : List Char) (fs : FSys) : FSys :=
  osReplace (writeFile fs (tmpName path) content) (tmpName path) path

/-- The file systems observable if the process crashes during
save_state: before anything, or after an incomplete or complete write of
the temporary file — every point before the rename. -/
def save_state_crash (path mid_content : List Char) (fs : FSys) : FSys :=
  writeFile fs (tmpName path) mid_content

/-- Directory component of a path: everything up to and including the
last slash. -/
def dropToSlash : List Char → List Char
  | [] => []
  | c :: cs => if c = '/' then c :: cs else dropToSlash cs

def dirname (p : List Char) : List Char := (dropToSlash p.reverse).reverse

-- ── extract_login_ip ─────────────────────────────────────────────────────

/-- extract_login_ip: lines without the marker yield nothing; otherwise
the slice from the first brace to the last brace is parsed as JSON
(ValueError from a missing brace and JSONDecodeError are caught and
yield nothing); then payload.get("requestIp", "") is split at the
first colon and returned if non-empty and containing a dot.  When the
requestIp value is not a string, the .split attribute access raises
AttributeError, which the handler does not catch. -/
def extract_login_ip (line : List Char) : Except PyErr (Option (List Char)) :=
  if isSubstring marker line = false then Except.ok none
  else
    match firstIdx lbraceC line, lastIdx rbraceC line with
    | some i, some j =>
      let part := (line.drop i).take (j + 1 - i)
      match json_loads part with
      | none => Except.ok none
      | some payload =>
        match pyGet payload requestIpKey (JsonValue.str []) with
        | Except.error e => Except.error e
        | Except.ok (JsonValue.str ipPort) =>
          let ip := splitHead ':' ipPort
          Except.ok (if ip ≠ [] ∧ '.' ∈ ip then some ip else none)
        | Except.ok _ => Except.error PyErr.attributeError
    | _, _ => Except.ok none

-- ── create_rule ──────────────────────────────────────────────────────────

/-- Outcome of one HTTP call: a response with status and body, or a
raised exception (timeout or transport error). -/
inductive HttpOutcome where
  | response (status : Nat) (body : List Char)
  | exn

/-- The rule-identifier extraction chain of create_rule:
data.get("data", dict()).get("ruleId"), falling back to data.get("id")
when the first result is falsy.  AttributeError from .get on a
non-dict is reported, to be absorbed by the broad handler. -/
def ruleIdChain (data : JsonValue) : Except PyErr JsonValue :=
  match pyGet data dataKey (JsonValue.obj []) with
  | Except.error e => Except.error e
  | Except.ok inner =>
    match pyGet inner ruleIdKey JsonValue.null with
    | Except.error e => Except.error e
    | Except.ok rid =>
      if truthy rid then Except.ok rid
      else pyGet data idKey JsonValue.null

/-- create_rule: the whole call body runs under except Exception, so
every raised error becomes None.  A response with status 200 or 201 is
parsed; a truthy identifier from the two-shape chain is returned via
str(); everything else is None. -/
def create_rule (o : HttpOutcome) : Option (List Char) :=
  match o with
  | HttpOutcome.exn => none
  | HttpOutcome.response status body =>
    if status = 200 ∨ status = 201 then
      match json_loads body with
      | none => none
      | some data =>
        match ruleIdChain data with
        | Except.error _ => none
        | Except.ok rid => if truthy rid then some (pyStr rid) else none
    else none

/-- delete_rule: success is a 200 or 204 response.  A raised transport
error would propagate (delete_rule has no handler) and abort the run
before any state is saved; the theorems below quantify over response
outcomes, carried by the delete oracle. -/
def delete_rule_ok (status : Nat) : Bool := decide (status = 200 ∨ status = 204)

-- ── main ─────────────────────────────────────────────────────────────────

/-- One persisted rule record: rules[ip] = dict of rule_id and
expires_at (an ISO timestamp in the file, an integer here). -/
structure RuleRecord where
  rule_id : List Char
  expires_at : Int
deriving DecidableEq

/-- Python dict lookup on the insertion-ordered rule map (first
binding wins; the script never creates duplicate keys). -/
def lookupIp (ip : List Char) : List (List Char × RuleRecord) → Option RuleRecord
  | [] => none
  | (k, v) :: rest => if k = ip then some v else lookupIp ip rest

/-- Externally visible actions of one run, in order. -/
inductive Event where
  | deleteCall (ruleId : List Char) (ok : Bool)
  | lineRead (line : List Char)
  | createCall (ip : List Char) (result : Option (List Char))
deriving DecidableEq

/-- The environment of one invocation: the timestamp captured at start,
the log file content, the delete outcome per rule identifier, and the
result and fresh timestamp of the n-th create call. -/
structure Config where
  now : Int
  content : List Char
  delOk : List Char → Bool
  createRes : Nat → Option (List Char)
  createTime : Nat → Int

/-- The state loaded at the start of main. -/
structure PersistedState where
  last_position : Nat
  rules : List (List Char × RuleRecord)

/-- The prune loop of main: for each record in order, if
now >= expires_at attempt deletion, dropping the record on success and
retaining it unchanged on failure; unexpired records are retained
unchanged. -/
def prune (now : Int) (delOk : List Char → Bool) :
    List (List Char × RuleRecord) → List (List Char × RuleRecord) × List Event
  | [] => ([], [])
  | (ip, rec) :: rest =>
    let pr := prune now delOk rest
    if rec.expires_at ≤ now then
      if delOk rec.rule_id then
        (pr.1, Event.deleteCall rec.rule_id (delOk rec.rule_id) :: pr.2)
      else
        ((ip, rec) :: pr.1, Event.deleteCall rec.rule_id (delOk rec.rule_id) :: pr.2)
    else ((ip, rec) :: pr.1, pr.2)

/-- Scan-loop state: the rule map, the byte position, and the number of
create calls issued so far (indexing the oracle). -/
structure ScanSt where
  rules : List (List Char × RuleRecord)
  pos : Nat
  ncalls : Nat
deriving DecidableEq

/-- The body of the scan loop for one line: advance the position by the
UTF-8 byte length, extract an IP, and if the IP is not already a key,
call create_rule; on success insert a record expiring TTL minutes
after the freshly captured timestamp. -/
def scanLine (cfg : Config) (s : ScanSt) (line : List Char) :
    Except PyErr (ScanSt × List Event) :=
  let pos := s.pos + utf8Len line
  match extract_login_ip line with
  | Except.error e => Except.error e
  | Except.ok none => Except.ok ({ s with pos := pos }, [Event.lineRead line])
  | Except.ok (some ip) =>
    match lookupIp ip s.rules with
    | some _ => Except.ok ({ s with pos := pos }, [Event.lineRead line])
    | none =>
      match cfg.createRes s.ncalls with
      | some rid =>
        Except.ok
          ({ rules := s.rules ++ [(ip, { rule_id := rid, expires_at := cfg.createTime s.ncalls + TTL_MINUTES })],
             pos := pos, ncalls := s.ncalls + 1 },
           [Event.lineRead line, Event.createCall ip (some rid)])
      | none =>
        Except.ok ({ s with pos := pos, ncalls := s.ncalls + 1 },
          [Event.lineRead line, Event.createCall ip none])

/-- The scan loop over the lines read from the effective offset. -/
def scanList (cfg : Config) (s : ScanSt) :
    List (List Char) → Except PyErr (ScanSt × List Event)
  | [] => Except.ok (s, [])
  | l :: ls =>
    match scanLine cfg s l with
    | Except.error e => Except.error e
    | Except.ok (s2, evs1) =>
      match scanList cfg s2 ls with
      | Except.error e => Except.error e
      | Except.ok (s3, evs2) => Except.ok (s3, evs1 ++ evs2)

/-- Skip the first off encoded bytes of the file (f.seek).  Saved
offsets always fall on character boundaries; behaviour inside a
multi-byte character is never exercised below. -/
def byteDrop : List Char → Nat → List Char
  | s, 0 => s
  | [], _ + 1 => []
  | c :: cs, off + 1 => byteDrop cs (off + 1 - utf8CharLen c)

/-- Line iteration of the text file: lines keep their trailing newline;
a final segment without a newline is a line of its own. -/
def splitLinesAux (cur : List Char) : List Char → List (List Char)
  | [] => if cur = [] then [] else [cur]
  | c :: cs =>
    if c = '\n' then (cur ++ [c]) :: splitLinesAux [] cs
    else splitLinesAux (cur ++ [c]) cs

def splitLines (s : List Char) : List (List Char) := splitLinesAux [] s

/-- The saved state and the action trace of a completed run. -/
structure MainResult where
  last_position : Nat
  rules : List (List Char × RuleRecord)
  events : List Event
deriving DecidableEq

/-- main, minus configuration validation and the fatal missing-log-file
exit: detect rotation by comparing the file size with the saved
offset, prune expired rules, scan the appended lines, and return the
state that save_state persists together with the event trace.  An
exception escaping extract_login_ip aborts the run with no state
saved. -/
def main_run (cfg : Config) (st : PersistedState) : Except PyErr MainResult :=
  let current_size := utf8Len cfg.content
  let last_position := if current_size < st.last_position then 0 else st.last_position
  let pr := prune cfg.now cfg.delOk st.rules
  match scanList cfg { rules := pr.1, pos := last_position, ncalls := 0 }
      (splitLines (byteDrop cfg.content last_position)) with
  | Except.error e => Except.error e
  | Except.ok (s, scanEvs) =>
    Except.ok { last_position := s.pos, rules := s.rules, events := pr.2 ++ scanEvs }

-- ── Trace observations ───────────────────────────────────────────────────

/-- The lines consumed, read off the trace. -/
def lineReads : List Event → List (List Char)
  | [] => []
  | Event.lineRead l :: rest => l :: lineReads rest
  | _ :: rest => lineReads rest

/-- Number of create calls issued for a given IP. -/
def createsFor (ip : List Char) : List Event → Nat
  | [] => 0
  | Event.createCall j _ :: rest => (if j = ip then 1 else 0) + createsFor ip rest
  | _ :: rest => createsFor ip rest

/-- Number of successful create calls for a given IP. -/
def succCreatesFor (ip : List Char) : List Event → Nat
  | [] => 0
  | Event.createCall j (some _) :: rest => (if j = ip then 1 else 0) + succCreatesFor ip rest
  | _ :: rest => succCreatesFor ip rest

def isDelete : Event → Bool
  | Event.deleteCall _ _ => true
  | _ => false

def isCreate : Event → Bool
  | Event.createCall _ _ => true
  | _ => false

def noDeletes (evs : List Event) : Bool := evs.all (fun e => !isDelete e)

/-- Every delete call precedes every line read: once the first line is
read, no delete call follows. -/
def deletesBeforeReads : List Event → Bool
  | [] => true
  | Event.lineRead _ :: rest => noDeletes rest
  | _ :: rest => deletesBeforeReads rest

/-- List of line sizes summed (offset accounting). -/
def lineSum : List (List Char) → Nat
  | [] => 0
  | l :: ls => utf8Len l + lineSum ls

/-- In the create_rule refinement: the first response shape yields no
truthy identifier, in a way that lets the fallback to the top-level id
field run — the data key is absent, or maps to an object without a
truthy ruleId.  A data key bound to a non-object aborts extraction
(an AttributeError absorbed into failure), so it does not satisfy
this predicate. -/
def noTruthyDataRuleId (fields : List (List Char × JsonValue)) : Bool :=
  match lookupField dataKey fields with
  | none => true
  | some (JsonValue.obj g) =>
    match lookupField ruleIdKey g with
    | some v => !truthy v
    | none => true
  | some _ => false

/-- Spec-side success criterion for create_rule, written from the spec
wording: the response body contains an identifier in one of two shapes,
a nested data.ruleId field checked first, or a top-level id field
(reachable only when the first check finds no truthy identifier and
does not abort).  Falsy values do not count as identifiers. -/
def bodyIdentifier (b : List Char) (v : JsonValue) : Prop :=
  (∃ fields g, json_loads b = some (JsonValue.obj fields) ∧
     lookupField dataKey fields = some (JsonValue.obj g) ∧
     lookupField ruleIdKey g = some v ∧ truthy v = true) ∨
  (∃ fields, json_loads b = some (JsonValue.obj fields) ∧
     noTruthyDataRuleId fields = true ∧
     lookupField idKey fields = some v ∧ truthy v = true)

-- ── Concrete inputs used to instantiate the theorems ─────────────────────

/-- A well-formed login line for IP 1.2.3.4. -/
def lineA : List Char :=
  ("Exchange session: Badger sent \x7b\"requestIp\": \"1.2.3.4:443\"\x7d" ++ "\n").toList

/-- A login line whose requestIp field is a number, not a string. -/
def badLine : List Char :=
  "Exchange session: Badger sent \x7b\"requestIp\": 123\x7d".toList

def badPart : List Char := "\x7b\"requestIp\": 123\x7d".toList

def ipA : List Char := "1.2.3.4".toList

def ridR1 : List Char := "r1".toList

def ridR9 : List Char := "r9".toList

/-- Scenario: an unexpired rule for ipA exists and ipA logs in again. -/
def cfgC1 : Config :=
  { now := 10, content := lineA, delOk := fun _ => true,
    createRes := fun _ => some ridR1, createTime := fun _ => 50 }

def stC1 : PersistedState :=
  { last_position := 0, rules := [(ipA, { rule_id := ridR1, expires_at := 100 })] }

def rC1 : MainResult :=
  { last_position := 59, rules := [(ipA, { rule_id := ridR1, expires_at := 100 })],
    events := [Event.lineRead lineA] }

/-- Scenario: empty state, one fresh login line, create call succeeds. -/
def cfgA : Config :=
  { now := 10, content := lineA, delOk := fun _ => true,
    createRes := fun _ => some ridR1, createTime := fun _ => 50 }

def stA : PersistedState := { last_position := 0, rules := [] }

def rA : MainResult :=
  { last_position := 59, rules := [(ipA, { rule_id := ridR1, expires_at := 410 })],
    events := [Event.lineRead lineA, Event.createCall ipA (some ridR1)] }

/-- Scenario: an expired rule whose deletion fails, no new log data. -/
def cfgC2 : Config :=
  { now := 10, content := [], delOk := fun _ => false,
    createRes := fun _ => none, createTime := fun _ => 50 }

def stC2 : PersistedState :=
  { last_position := 0, rules := [(ipA, { rule_id := ridR1, expires_at := 5 })] }

def rC2 : MainResult :=
  { last_position := 0, rules := [(ipA, { rule_id := ridR1, expires_at := 5 })],
    events := [Event.deleteCall ridR1 false] }

/-- Scenario: an expired rule for ipA is deleted successfully and the
same IP then logs in again within the very same run. -/
def cfgC2x : Config :=
  { now := 10, content := lineA, delOk := fun _ => true,
    createRes := fun _ => some ridR9, createTime := fun _ => 50 }

def stC2x : PersistedState :=
  { last_position := 0, rules := [(ipA, { rule_id := ridR1, expires_at := 5 })] }

def rC2x : MainResult :=
  { last_position := 59, rules := [(ipA, { rule_id := ridR9, expires_at := 410 })],
    events := [Event.deleteCall ridR1 true, Event.lineRead lineA,
               Event.createCall ipA (some ridR9)] }

/-- Scenario: saved offset larger than the (rewritten) file — rotation. -/
def stC4 : PersistedState := { last_position := 100, rules := [] }

/-- A create response body carrying an identifier in the nested shape. -/
def body9 : List Char := "\x7b\"data\": \x7b\"ruleId\": \"abc\"\x7d\x7d".toList

-- ── Lemmas: lookup and keys ──────────────────────────────────────────────

theorem lookupIp_append_some {ip : List Char} {l l2 : List (List Char × RuleRecord)}
    {rec : RuleRecord} (h : lookupIp ip l = some rec) :
    lookupIp ip (l ++ l2) = some rec := by
  induction l with
  | nil => exact Option.noConfusion h
  | cons p rest ih =>
    obtain ⟨k, v⟩ := p
    by_cases hk : k = ip
    · simpa [lookupIp, hk] using h
    · simp only [lookupIp, hk, if_false, List.cons_append] at h ⊢
      exact ih h

theorem lookupIp_append_none {ip : List Char} {l l2 : List (List Char × RuleRecord)}
    (h : lookupIp ip l = none) :
    lookupIp ip (l ++ l2) = lookupIp ip l2 := by
  induction l with
  | nil => simp
  | cons p rest ih =>
    obtain ⟨k, v⟩ := p
    by_cases hk : k = ip
    · simp [lookupIp, hk] at h
    · simp only [lookupIp, hk, if_false] at h
      simp only [List.cons_append, lookupIp, hk, if_false]
      exact ih h

theorem lookupIp_none_of_not_mem_keys {ip : List Char}
    {l : List (List Char × RuleRecord)} (h : ip ∉ l.map Prod.fst) :
    lookupIp ip l = none := by
  induction l with
  | nil => rfl
  | cons p rest ih =>
    obtain ⟨k, v⟩ := p
    simp only [List.map_cons, List.mem_cons, not_or] at h
    have hk : k ≠ ip := fun hk => h.1 hk.symm
    simp only [lookupIp]
    rw [if_neg hk]
    exact ih h.2

theorem lookupIp_isSome_of_mem_keys {ip : List Char}
    {l : List (List Char × RuleRecord)} (h : ip ∈ l.map Prod.fst) :
    ∃ rec, lookupIp ip l = some rec := by
  induction l with
  | nil => simp at h
  | cons p rest ih =>
    obtain ⟨k, v⟩ := p
    by_cases hk : k = ip
    · exact ⟨v, by simp [lookupIp, hk]⟩
    · simp only [List.map_cons, List.mem_cons] at h
      rcases h with h | h
      · exact absurd h.symm hk
      · obtain ⟨rec, hrec⟩ := ih h
        exact ⟨rec, by simp [lookupIp, hk, hrec]⟩

theorem mem_of_lookupIp_eq_some {ip : List Char} {l : List (List Char × RuleRecord)}
    {rec : RuleRecord} (h : lookupIp ip l = some rec) : (ip, rec) ∈ l := by
  induction l with
  | nil => simp [lookupIp] at h
  | cons p rest ih =>
    obtain ⟨k, v⟩ := p
    by_cases hk : k = ip
    · simp only [lookupIp, hk, if_true, Option.some.injEq] at h
      subst hk h
      exact List.mem_cons_self _ _
    · simp only [lookupIp, hk, if_false] at h
      exact List.mem_cons_of_mem _ (ih h)

-- ── Lemmas: UTF-8 lengths, byteDrop, splitLines ──────────────────────────

theorem utf8CharLen_pos (c : Char) : 1 ≤ utf8CharLen c := by
  unfold utf8CharLen
  split
  · omega
  split
  · omega
  split
  · omega
  · omega

theorem utf8Len_append (a b : List Char) :
    utf8Len (a ++ b) = utf8Len a + utf8Len b := by
  induction a with
  | nil => simp [utf8Len]
  | cons c cs ih => simp [utf8Len, ih]; omega

theorem byteDrop_zero (s : List Char) : byteDrop s 0 = s := by
  cases s <;> rfl

theorem byteDrop_bound :
    ∀ (s : List Char) (off : Nat), off ≤ utf8Len s →
      off + utf8Len (byteDrop s off) ≤ utf8Len s := by
  intro s
  induction s with
  | nil =>
    intro off h
    simp [utf8Len] at h
    subst h
    simp [byteDrop, utf8Len]
  | cons c cs ih =>
    intro off h
    cases off with
    | zero => simp [byteDrop]
    | succ o =>
      simp only [byteDrop]
      have hc1 : 1 ≤ utf8CharLen c := utf8CharLen_pos c
      simp only [utf8Len] at h ⊢
      by_cases hc : o + 1 ≤ utf8CharLen c
      · have h0 : o + 1 - utf8CharLen c = 0 := by omega
        rw [h0, byteDrop_zero]
        omega
      · have hle : o + 1 - utf8CharLen c ≤ utf8Len cs := by omega
        have := ih (o + 1 - utf8CharLen c) hle
        omega

theorem lineSum_splitLinesAux (s : List Char) :
    ∀ cur, lineSum (splitLinesAux cur s) = utf8Len cur + utf8Len s := by
  induction s with
  | nil =>
    intro cur
    by_cases hcur : cur = []
    · simp [splitLinesAux, hcur, lineSum, utf8Len]
    · simp [splitLinesAux, hcur, lineSum, utf8Len]
  | cons c cs ih =>
    intro cur
    by_cases hc : c = '\n'
    · simp only [splitLinesAux, hc, if_true, lineSum, ih, utf8Len, utf8Len_append]
      omega
    · simp only [splitLinesAux, hc, if_false, ih, utf8Len, utf8Len_append]
      omega

theorem lineSum_splitLines (s : List Char) : lineSum (splitLines s) = utf8Len s := by
  simpa [utf8Len] using lineSum_splitLinesAux s []

-- ── Lemmas: event counting ───────────────────────────────────────────────

theorem createsFor_append (ip : List Char) (a b : List Event) :
    createsFor ip (a ++ b) = createsFor ip a + createsFor ip b := by
  induction a with
  | nil => simp [createsFor]
  | cons e rest ih =>
    cases e with
    | deleteCall rid ok => simp [createsFor, ih]
    | lineRead l => simp [createsFor, ih]
    | createCall j r => simp [createsFor, ih]; omega

theorem succCreatesFor_append (ip : List Char) (a b : List Event) :
    succCreatesFor ip (a ++ b) = succCreatesFor ip a + succCreatesFor ip b := by
  induction a with
  | nil => simp [succCreatesFor]
  | cons e rest ih =>
    cases e with
    | deleteCall rid ok => simp [succCreatesFor, ih]
    | lineRead l => simp [succCreatesFor, ih]
    | createCall j r =>
      cases r with
      | none => simp [succCreatesFor, ih]
      | some x => simp [succCreatesFor, ih]; omega

theorem lineReads_append (a b : List Event) :
    lineReads (a ++ b) = lineReads a ++ lineReads b := by
  induction a with
  | nil => simp [lineReads]
  | cons e rest ih => cases e <;> simp [lineReads, ih]

theorem succCreatesFor_le_createsFor (ip : List Char) (evs : List Event) :
    succCreatesFor ip evs ≤ createsFor ip evs := by
  induction evs with
  | nil => simp [succCreatesFor, createsFor]
  | cons e rest ih =>
    cases e with
    | deleteCall rid ok => simpa [succCreatesFor, createsFor] using ih
    | lineRead l => simpa [succCreatesFor, createsFor] using ih
    | createCall j r =>
      cases r <;> simp [succCreatesFor, createsFor] <;> omega

theorem createsFor_of_all_delete {evs : List Event}
    (h : ∀ e ∈ evs, isDelete e = true) (ip : List Char) : createsFor ip evs = 0 := by
  induction evs with
  | nil => rfl
  | cons e rest ih =>
    cases e with
    | deleteCall rid ok =>
      simp only [createsFor]
      exact ih (fun e he => h e (List.mem_cons_of_mem _ he))
    | lineRead l => exact absurd (h _ (List.mem_cons_self _ _)) (by simp [isDelete])
    | createCall j r => exact absurd (h _ (List.mem_cons_self _ _)) (by simp [isDelete])

theorem lineReads_of_all_delete {evs : List Event}
    (h : ∀ e ∈ evs, isDelete e = true) : lineReads evs = [] := by
  induction evs with
  | nil => rfl
  | cons e rest ih =>
    cases e with
    | deleteCall rid ok =>
      simp only [lineReads]
      exact ih (fun e he => h e (List.mem_cons_of_mem _ he))
    | lineRead l => exact absurd (h _ (List.mem_cons_self _ _)) (by simp [isDelete])
    | createCall j r => exact absurd (h _ (List.mem_cons_self _ _)) (by simp [isDelete])

theorem deletesBeforeReads_of_noDeletes {evs : List Event}
    (h : noDeletes evs = true) : deletesBeforeReads evs = true := by
  induction evs with
  | nil => rfl
  | cons e rest ih =>
    simp only [noDeletes, List.all_cons, Bool.and_eq_true] at h
    cases e with
    | deleteCall rid ok => simp [isDelete] at h
    | lineRead l =>
      simp only [deletesBeforeReads]
      exact h.2
    | createCall j r =>
      simp only [deletesBeforeReads]
      exact ih h.2

theorem deletesBeforeReads_append {a b : List Event}
    (ha : ∀ e ∈ a, isDelete e = true) (hb : noDeletes b = true) :
    deletesBeforeReads (a ++ b) = true := by
  induction a with
  | nil => exact deletesBeforeReads_of_noDeletes hb
  | cons e rest ih =>
    cases e with
    | deleteCall rid ok =>
      simp only [List.cons_append, deletesBeforeReads]
      exact ih (fun e he => ha e (List.mem_cons_of_mem _ he))
    | lineRead l => exact absurd (ha _ (List.mem_cons_self _ _)) (by simp [isDelete])
    | createCall j r => exact absurd (ha _ (List.mem_cons_self _ _)) (by simp [isDelete])

-- ── Lemmas: prune ────────────────────────────────────────────────────────

theorem prune_sublist (now : Int) (delOk : List Char → Bool)
    (rules : List (List Char × RuleRecord)) :
    ((prune now delOk rules).1).Sublist rules := by
  induction rules with
  | nil => simp [prune]
  | cons q rest ih =>
    obtain ⟨k, v⟩ := q
    simp only [prune]
    by_cases hexp : v.expires_at ≤ now
    · rw [if_pos hexp]
      by_cases hdel : delOk v.rule_id = true
      · rw [if_pos hdel]
        exact List.Sublist.cons _ ih
      · rw [if_neg hdel]
        exact List.Sublist.cons₂ _ ih
    · rw [if_neg hexp]
      exact List.Sublist.cons₂ _ ih

theorem prune_mem {now : Int} {delOk : List Char → Bool}
    {rules : List (List Char × RuleRecord)} {p : List Char × RuleRecord}
    (h : p ∈ (prune now delOk rules).1) : p ∈ rules :=
  (prune_sublist now delOk rules).subset h

theorem prune_keys_nodup {now : Int} {delOk : List Char → Bool}
    {rules : List (List Char × RuleRecord)}
    (h : (rules.map Prod.fst).Nodup) :
    (((prune now delOk rules).1).map Prod.fst).Nodup :=
  h.sublist ((prune_sublist now delOk rules).map Prod.fst)

theorem prune_events_delete {now : Int} {delOk : List Char → Bool}
    {rules : List (List Char × RuleRecord)} :
    ∀ e ∈ (prune now delOk rules).2, isDelete e = true := by
  induction rules with
  | nil => simp [prune]
  | cons q rest ih =>
    obtain ⟨k, v⟩ := q
    intro e he
    simp only [prune] at he
    by_cases hexp : v.expires_at ≤ now
    · rw [if_pos hexp] at he
      by_cases hdel : delOk v.rule_id = true
      · rw [if_pos hdel] at he
        rcases List.mem_cons.mp he with he | he
        · subst he
          rfl
        · exact ih e he
      · rw [if_neg hdel] at he
        rcases List.mem_cons.mp he with he | he
        · subst he
          rfl
        · exact ih e he
    · rw [if_neg hexp] at he
      exact ih e he

theorem prune_lookup_none {now : Int} {delOk : List Char → Bool} {ip : List Char}
    {rules : List (List Char × RuleRecord)} (h : lookupIp ip rules = none) :
    lookupIp ip (prune now delOk rules).1 = none := by
  induction rules with
  | nil => rfl
  | cons q rest ih =>
    obtain ⟨k, v⟩ := q
    by_cases hk : k = ip
    · simp [lookupIp, hk] at h
    · simp only [lookupIp] at h
      rw [if_neg hk] at h
      by_cases hexp : v.expires_at ≤ now
      · by_cases hdel : delOk v.rule_id
        · simp only [prune, hexp, if_true, hdel]
          exact ih h
        · simp only [prune, hexp, if_true, hdel, if_false, lookupIp]
          rw [if_neg hk]
          exact ih h
      · simp only [prune, hexp, if_false, lookupIp]
        rw [if_neg hk]
        exact ih h

theorem prune_keep_unexpired {now : Int} {delOk : List Char → Bool} {ip : List Char}
    {rules : List (List Char × RuleRecord)} {rec : RuleRecord}
    (h : lookupIp ip rules = some rec) (hexp : ¬ rec.expires_at ≤ now) :
    lookupIp ip (prune now delOk rules).1 = some rec := by
  induction rules with
  | nil => exact Option.noConfusion h
  | cons q rest ih =>
    obtain ⟨k, v⟩ := q
    by_cases hk : k = ip
    · simp only [lookupIp, hk, if_true, Option.some.injEq] at h
      subst h
      simp only [prune, hexp, if_false, lookupIp, hk, if_true]
    · simp only [lookupIp] at h
      rw [if_neg hk] at h
      by_cases hvexp : v.expires_at ≤ now
      · by_cases hdel : delOk v.rule_id
        · simp only [prune, hvexp, if_true, hdel]
          exact ih h
        · simp only [prune, hvexp, if_true, hdel, if_false, lookupIp]
          rw [if_neg hk]
          exact ih h
      · simp only [prune, hvexp, if_false, lookupIp]
        rw [if_neg hk]
        exact ih h

theorem prune_keep_failed {now : Int} {delOk : List Char → Bool} {ip : List Char}
    {rules : List (List Char × RuleRecord)} {rec : RuleRecord}
    (h : lookupIp ip rules = some rec) (hexp : rec.expires_at ≤ now)
    (hdel : delOk rec.rule_id = false) :
    lookupIp ip (prune now delOk rules).1 = some rec := by
  induction rules with
  | nil => exact Option.noConfusion h
  | cons q rest ih =>
    obtain ⟨k, v⟩ := q
    by_cases hk : k = ip
    · simp only [lookupIp, hk, if_true, Option.some.injEq] at h
      subst h
      simp only [prune, hexp, if_true, hdel, Bool.false_eq_true, if_false, lookupIp,
        hk, if_true]
    · simp only [lookupIp] at h
      rw [if_neg hk] at h
      by_cases hvexp : v.expires_at ≤ now
      · by_cases hvdel : delOk v.rule_id
        · simp only [prune, hvexp, if_true, hvdel]
          exact ih h
        · simp only [prune, hvexp, if_true, hvdel, if_false, lookupIp]
          rw [if_neg hk]
          exact ih h
      · simp only [prune, hvexp, if_false, lookupIp]
        rw [if_neg hk]
        exact ih h

theorem prune_drop {now : Int} {delOk : List Char → Bool} {ip : List Char}
    {rules : List (List Char × RuleRecord)} {rec : RuleRecord}
    (hnd : (rules.map Prod.fst).Nodup)
    (h : lookupIp ip rules = some rec) (hexp : rec.expires_at ≤ now)
    (hdel : delOk rec.rule_id = true) :
    lookupIp ip (prune now delOk rules).1 = none := by
  induction rules with
  | nil => exact Option.noConfusion h
  | cons q rest ih =>
    obtain ⟨k, v⟩ := q
    simp only [List.map_cons, List.nodup_cons] at hnd
    by_cases hk : k = ip
    · simp only [lookupIp, hk, if_true, Option.some.injEq] at h
      subst h
      simp only [prune, hexp, if_true, hdel, if_true]
      apply prune_lookup_none
      apply lookupIp_none_of_not_mem_keys
      rw [← hk]
      exact hnd.1
    · simp only [lookupIp] at h
      rw [if_neg hk] at h
      by_cases hvexp : v.expires_at ≤ now
      · by_cases hvdel : delOk v.rule_id
        · simp only [prune, hvexp, if_true, hvdel, if_true]
          exact ih hnd.2 h
        · simp only [prune, hvexp, if_true, hvdel, if_false, lookupIp]
          rw [if_neg hk]
          exact ih hnd.2 h
      · simp only [prune, hvexp, if_false, lookupIp]
        rw [if_neg hk]
        exact ih hnd.2 h

theorem prune_delete_mem {now : Int} {delOk : List Char → Bool} {ip : List Char}
    {rules : List (List Char × RuleRecord)} {rec : RuleRecord}
    (h : lookupIp ip rules = some rec) (hexp : rec.expires_at ≤ now) :
    Event.deleteCall rec.rule_id (delOk rec.rule_id) ∈ (prune now delOk rules).2 := by
  induction rules with
  | nil => exact Option.noConfusion h
  | cons q rest ih =>
    obtain ⟨k, v⟩ := q
    by_cases hk : k = ip
    · have hv : v = rec := by simpa [lookupIp, hk] using h
      subst hv
      simp only [prune]
      rw [if_pos hexp]
      by_cases hdel : delOk v.rule_id = true
      · rw [if_pos hdel]
        exact List.mem_cons_self _ _
      · rw [if_neg hdel]
        exact List.mem_cons_self _ _
    · have h' : lookupIp ip rest = some rec := by
        simpa [lookupIp, hk] using h
      simp only [prune]
      by_cases hvexp : v.expires_at ≤ now
      · rw [if_pos hvexp]
        by_cases hvdel : delOk v.rule_id = true
        · rw [if_pos hvdel]
          exact List.mem_cons_of_mem _ (ih h')
        · rw [if_neg hvdel]
          exact List.mem_cons_of_mem _ (ih h')
      · rw [if_neg hvexp]
        exact ih h'

-- ── Lemmas: the scan loop ────────────────────────────────────────────────

/-- Complete case analysis of one successful scan step. -/
theorem scanLine_spec {cfg : Config} {s : ScanSt} {line : List Char}
    {s2 : ScanSt} {evs : List Event}
    (h : scanLine cfg s line = Except.ok (s2, evs)) :
    s2.pos = s.pos + utf8Len line ∧
    ((evs = [Event.lineRead line] ∧ s2.rules = s.rules ∧ s2.ncalls = s.ncalls) ∨
     (∃ ip, extract_login_ip line = Except.ok (some ip) ∧
        lookupIp ip s.rules = none ∧ s2.ncalls = s.ncalls + 1 ∧
        ((∃ rid, cfg.createRes s.ncalls = some rid ∧
            evs = [Event.lineRead line, Event.createCall ip (some rid)] ∧
            s2.rules = s.rules ++
              [(ip, { rule_id := rid,
                      expires_at := cfg.createTime s.ncalls + TTL_MINUTES })]) ∨
         (cfg.createRes s.ncalls = none ∧
            evs = [Event.lineRead line, Event.createCall ip none] ∧
            s2.rules = s.rules)))) := by
  cases hx : extract_login_ip line with
  | error e => simp [scanLine, hx] at h
  | ok o =>
    cases o with
    | none =>
      simp only [scanLine, hx, Except.ok.injEq, Prod.mk.injEq] at h
      obtain ⟨hs, he⟩ := h
      subst hs
      subst he
      exact ⟨rfl, Or.inl ⟨rfl, rfl, rfl⟩⟩
    | some ip =>
      cases hl : lookupIp ip s.rules with
      | some rec =>
        simp only [scanLine, hx, hl, Except.ok.injEq, Prod.mk.injEq] at h
        obtain ⟨hs, he⟩ := h
        subst hs
        subst he
        exact ⟨rfl, Or.inl ⟨rfl, rfl, rfl⟩⟩
      | none =>
        cases hc : cfg.createRes s.ncalls with
        | some rid =>
          simp only [scanLine, hx, hl, hc, Except.ok.injEq, Prod.mk.injEq] at h
          obtain ⟨hs, he⟩ := h
          subst hs
          subst he
          exact ⟨rfl, Or.inr ⟨ip, rfl, hl, rfl, Or.inl ⟨rid, rfl, rfl, rfl⟩⟩⟩
        | none =>
          simp only [scanLine, hx, hl, hc, Except.ok.injEq, Prod.mk.injEq] at h
          obtain ⟨hs, he⟩ := h
          subst hs
          subst he
          exact ⟨rfl, Or.inr ⟨ip, rfl, hl, rfl, Or.inr ⟨rfl, rfl, rfl⟩⟩⟩

theorem scanList_frame {cfg : Config} {ls : List (List Char)} :
    ∀ {s s2 : ScanSt} {evs : List Event} {ip : List Char} {rec : RuleRecord},
      scanList cfg s ls = Except.ok (s2, evs) →
      lookupIp ip s.rules = some rec → lookupIp ip s2.rules = some rec := by
  induction ls with
  | nil =>
    intro s s2 evs ip rec h hl
    simp only [scanList, Except.ok.injEq, Prod.mk.injEq] at h
    obtain ⟨hs, -⟩ := h
    subst hs
    exact hl
  | cons l ls ih =>
    intro s s2 evs ip rec h hl
    cases h1 : scanLine cfg s l with
    | error e => simp [scanList, h1] at h
    | ok p =>
      obtain ⟨sm, evs1⟩ := p
      cases h2 : scanList cfg sm ls with
      | error e => simp [scanList, h1, h2] at h
      | ok q =>
        obtain ⟨s3, evs2⟩ := q
        simp only [scanList, h1, h2, Except.ok.injEq, Prod.mk.injEq] at h
        obtain ⟨hs, -⟩ := h
        subst hs
        obtain ⟨-, hcases⟩ := scanLine_spec h1
        have hm : lookupIp ip sm.rules = some rec := by
          rcases hcases with ⟨-, hr, -⟩ | ⟨j, -, -, -, hbr⟩
          · rw [hr]
            exact hl
          · rcases hbr with ⟨rid, -, -, hr⟩ | ⟨-, -, hr⟩
            · rw [hr]
              exact lookupIp_append_some hl
            · rw [hr]
              exact hl
        exact ih h2 hm

theorem scanList_pos {cfg : Config} {ls : List (List Char)} :
    ∀ {s s2 : ScanSt} {evs : List Event},
      scanList cfg s ls = Except.ok (s2, evs) → s2.pos = s.pos + lineSum ls := by
  induction ls with
  | nil =>
    intro s s2 evs h
    simp only [scanList, Except.ok.injEq, Prod.mk.injEq] at h
    obtain ⟨hs, -⟩ := h
    subst hs
    simp [lineSum]
  | cons l ls ih =>
    intro s s2 evs h
    cases h1 : scanLine cfg s l with
    | error e => simp [scanList, h1] at h
    | ok p =>
      obtain ⟨sm, evs1⟩ := p
      cases h2 : scanList cfg sm ls with
      | error e => simp [scanList, h1, h2] at h
      | ok q =>
        obtain ⟨s3, evs2⟩ := q
        simp only [scanList, h1, h2, Except.ok.injEq, Prod.mk.injEq] at h
        obtain ⟨hs, -⟩ := h
        subst hs
        have hp1 := (scanLine_spec h1).1
        have hp2 := ih h2
        simp only [lineSum]
        omega

theorem scanList_lineReads {cfg : Config} {ls : List (List Char)} :
    ∀ {s s2 : ScanSt} {evs : List Event},
      scanList cfg s ls = Except.ok (s2, evs) → lineReads evs = ls := by
  induction ls with
  | nil =>
    intro s s2 evs h
    simp only [scanList, Except.ok.injEq, Prod.mk.injEq] at h
    obtain ⟨-, he⟩ := h
    subst he
    rfl
  | cons l ls ih =>
    intro s s2 evs h
    cases h1 : scanLine cfg s l with
    | error e => simp [scanList, h1] at h
    | ok p =>
      obtain ⟨sm, evs1⟩ := p
      cases h2 : scanList cfg sm ls with
      | error e => simp [scanList, h1, h2] at h
      | ok q =>
        obtain ⟨s3, evs2⟩ := q
        simp only [scanList, h1, h2, Except.ok.injEq, Prod.mk.injEq] at h
        obtain ⟨-, he⟩ := h
        subst he
        rw [lineReads_append]
        have h1r : lineReads evs1 = [l] := by
          obtain ⟨-, hcases⟩ := scanLine_spec h1
          rcases hcases with ⟨hr, -, -⟩ | ⟨j, -, -, -, hbr⟩
          · rw [hr]
            rfl
          · rcases hbr with ⟨rid, -, hr, -⟩ | ⟨-, hr, -⟩
            · rw [hr]
              rfl
            · rw [hr]
              rfl
        rw [h1r, ih h2]
        rfl

theorem scanList_noDeletes {cfg : Config} {ls : List (List Char)} :
    ∀ {s s2 : ScanSt} {evs : List Event},
      scanList cfg s ls = Except.ok (s2, evs) → noDeletes evs = true := by
  induction ls with
  | nil =>
    intro s s2 evs h
    simp only [scanList, Except.ok.injEq, Prod.mk.injEq] at h
    obtain ⟨-, he⟩ := h
    subst he
    rfl
  | cons l ls ih =>
    intro s s2 evs h
    cases h1 : scanLine cfg s l with
    | error e => simp [scanList, h1] at h
    | ok p =>
      obtain ⟨sm, evs1⟩ := p
      cases h2 : scanList cfg sm ls with
      | error e => simp [scanList, h1, h2] at h
      | ok q =>
        obtain ⟨s3, evs2⟩ := q
        simp only [scanList, h1, h2, Except.ok.injEq, Prod.mk.injEq] at h
        obtain ⟨-, he⟩ := h
        subst he
        have h1d : noDeletes evs1 = true := by
          obtain ⟨-, hcases⟩ := scanLine_spec h1
          rcases hcases with ⟨hr, -, -⟩ | ⟨j, -, -, -, hbr⟩
          · rw [hr]
            rfl
          · rcases hbr with ⟨rid, -, hr, -⟩ | ⟨-, hr, -⟩
            · rw [hr]
              rfl
            · rw [hr]
              rfl
        simp only [noDeletes, List.all_append, Bool.and_eq_true]
        exact ⟨h1d, ih h2⟩

theorem scanList_creates_zero {cfg : Config} {ls : List (List Char)} :
    ∀ {s s2 : ScanSt} {evs : List Event} {ip : List Char} {rec : RuleRecord},
      scanList cfg s ls = Except.ok (s2, evs) →
      lookupIp ip s.rules = some rec → createsFor ip evs = 0 := by
  induction ls with
  | nil =>
    intro s s2 evs ip rec h hl
    simp only [scanList, Except.ok.injEq, Prod.mk.injEq] at h
    obtain ⟨-, he⟩ := h
    subst he
    rfl
  | cons l ls ih =>
    intro s s2 evs ip rec h hl
    cases h1 : scanLine cfg s l with
    | error e => simp [scanList, h1] at h
    | ok p =>
      obtain ⟨sm, evs1⟩ := p
      cases h2 : scanList cfg sm ls with
      | error e => simp [scanList, h1, h2] at h
      | ok q =>
        obtain ⟨s3, evs2⟩ := q
        simp only [scanList, h1, h2, Except.ok.injEq, Prod.mk.injEq] at h
        obtain ⟨-, he⟩ := h
        subst he
        rw [createsFor_append]
        obtain ⟨-, hcases⟩ := scanLine_spec h1
        have key : createsFor ip evs1 = 0 ∧ lookupIp ip sm.rules = some rec := by
          rcases hcases with ⟨hr, hrr, -⟩ | ⟨j, -, hnone, -, hbr⟩
          · rw [hr, hrr]
            exact ⟨rfl, hl⟩
          · have hj : j ≠ ip := by
              intro hji
              rw [hji, hl] at hnone
              exact Option.noConfusion hnone
            rcases hbr with ⟨rid, -, hr, hrr⟩ | ⟨-, hr, hrr⟩
            · rw [hr, hrr]
              exact ⟨by simp [createsFor, hj], lookupIp_append_some hl⟩
            · rw [hr, hrr]
              exact ⟨by simp [createsFor, hj], hl⟩
        rw [key.1, ih h2 key.2]

theorem lookupIp_appended_self {ip : List Char} {l : List (List Char × RuleRecord)}
    {rec : RuleRecord} (h : lookupIp ip l = none) :
    lookupIp ip (l ++ [(ip, rec)]) = some rec := by
  rw [lookupIp_append_none h]
  simp [lookupIp]

theorem scanList_succ_le_one {cfg : Config} {ls : List (List Char)} :
    ∀ {s s2 : ScanSt} {evs : List Event} {ip : List Char},
      scanList cfg s ls = Except.ok (s2, evs) → succCreatesFor ip evs ≤ 1 := by
  induction ls with
  | nil =>
    intro s s2 evs ip h
    simp only [scanList, Except.ok.injEq, Prod.mk.injEq] at h
    obtain ⟨-, he⟩ := h
    subst he
    simp [succCreatesFor]
  | cons l ls ih =>
    intro s s2 evs ip h
    cases h1 : scanLine cfg s l with
    | error e => simp [scanList, h1] at h
    | ok p =>
      obtain ⟨sm, evs1⟩ := p
      cases h2 : scanList cfg sm ls with
      | error e => simp [scanList, h1, h2] at h
      | ok q =>
        obtain ⟨s3, evs2⟩ := q
        simp only [scanList, h1, h2, Except.ok.injEq, Prod.mk.injEq] at h
        obtain ⟨-, he⟩ := h
        subst he
        rw [succCreatesFor_append]
        obtain ⟨-, hcases⟩ := scanLine_spec h1
        rcases hcases with ⟨hr, -, -⟩ | ⟨j, -, hnone, -, hbr⟩
        · rw [hr]
          have hrest : succCreatesFor ip evs2 ≤ 1 := ih h2
          simp only [succCreatesFor]
          omega
        · rcases hbr with ⟨rid, -, hr, hrr⟩ | ⟨-, hr, -⟩
          · by_cases hj : j = ip
            · subst hj
              have hmem : lookupIp j sm.rules =
                  some { rule_id := rid, expires_at := cfg.createTime s.ncalls + TTL_MINUTES } := by
                rw [hrr]
                exact lookupIp_appended_self hnone
              have hz : createsFor j evs2 = 0 := scanList_creates_zero h2 hmem
              have hsz : succCreatesFor j evs2 = 0 := by
                have := succCreatesFor_le_createsFor j evs2
                omega
              rw [hr, hsz]
              simp [succCreatesFor]
            · rw [hr]
              have hrest : succCreatesFor ip evs2 ≤ 1 := ih h2
              simp only [succCreatesFor, if_neg hj]
              omega
          · rw [hr]
            have hrest : succCreatesFor ip evs2 ≤ 1 := ih h2
            simp only [succCreatesFor]
            omega

theorem cons_eq_append_cons {α : Type} {a : α} {t l₁ l₂ : List α} {ev : α}
    (h : a :: t = l₁ ++ ev :: l₂) :
    (l₁ = [] ∧ a = ev ∧ t = l₂) ∨ ∃ l₁p, l₁ = a :: l₁p ∧ t = l₁p ++ ev :: l₂ := by
  cases l₁ with
  | nil =>
    simp only [List.nil_append, List.cons.injEq] at h
    exact Or.inl ⟨rfl, h.1, h.2⟩
  | cons x xs =>
    simp only [List.cons_append, List.cons.injEq] at h
    refine Or.inr ⟨xs, ?_, h.2⟩
    rw [h.1]

theorem scanList_split_success {cfg : Config} {ls : List (List Char)} :
    ∀ {s s2 : ScanSt} {evs l₁ l₂ : List Event} {ip rid : List Char},
      scanList cfg s ls = Except.ok (s2, evs) →
      evs = l₁ ++ Event.createCall ip (some rid) :: l₂ →
      createsFor ip l₂ = 0 := by
  induction ls with
  | nil =>
    intro s s2 evs l₁ l₂ ip rid h hsp
    simp only [scanList, Except.ok.injEq, Prod.mk.injEq] at h
    obtain ⟨-, he⟩ := h
    rw [← he] at hsp
    exact absurd hsp (by cases l₁ <;> simp)
  | cons l ls ih =>
    intro s s2 evs l₁ l₂ ip rid h hsp
    cases h1 : scanLine cfg s l with
    | error e => simp [scanList, h1] at h
    | ok p =>
      obtain ⟨sm, evs1⟩ := p
      cases h2 : scanList cfg sm ls with
      | error e => simp [scanList, h1, h2] at h
      | ok q =>
        obtain ⟨s3, evs2⟩ := q
        simp only [scanList, h1, h2, Except.ok.injEq, Prod.mk.injEq] at h
        obtain ⟨-, he⟩ := h
        rw [← he] at hsp
        obtain ⟨-, hcases⟩ := scanLine_spec h1
        rcases hcases with ⟨hr, -, -⟩ | ⟨j, -, hnone, -, hbr⟩
        · rw [hr, List.cons_append, List.nil_append] at hsp
          rcases cons_eq_append_cons hsp with ⟨-, habs, -⟩ | ⟨l₁p, -, ht⟩
          · exact Event.noConfusion habs
          · exact ih h2 ht
        · rcases hbr with ⟨rid2, -, hr, hrr⟩ | ⟨-, hr, -⟩
          · rw [hr] at hsp
            simp only [List.cons_append, List.nil_append] at hsp
            rcases cons_eq_append_cons hsp with ⟨-, habs, -⟩ | ⟨l₁p, -, ht⟩
            · exact Event.noConfusion habs
            · rcases cons_eq_append_cons ht with ⟨-, hev, htt⟩ | ⟨l₁pp, -, htt⟩
              · obtain ⟨hji, hrs⟩ := Event.createCall.inj hev
                subst hji
                rw [← htt]
                have hmem : lookupIp j sm.rules =
                    some { rule_id := rid2, expires_at := cfg.createTime s.ncalls + TTL_MINUTES } := by
                  rw [hrr]
                  exact lookupIp_appended_self hnone
                exact scanList_creates_zero h2 hmem
              · exact ih h2 htt
          · rw [hr] at hsp
            simp only [List.cons_append, List.nil_append] at hsp
            rcases cons_eq_append_cons hsp with ⟨-, habs, -⟩ | ⟨l₁p, -, ht⟩
            · exact Event.noConfusion habs
            · rcases cons_eq_append_cons ht with ⟨-, hev, -⟩ | ⟨l₁pp, -, htt⟩
              · obtain ⟨-, hrs⟩ := Event.createCall.inj hev
                exact Option.noConfusion hrs
              · exact ih h2 htt

theorem scanList_new {cfg : Config} {ls : List (List Char)} :
    ∀ {s s2 : ScanSt} {evs : List Event} {ip : List Char},
      scanList cfg s ls = Except.ok (s2, evs) →
      lookupIp ip s.rules = none →
      lookupIp ip s2.rules = none ∨
        ∃ n rid, cfg.createRes n = some rid ∧
          lookupIp ip s2.rules =
            some { rule_id := rid, expires_at := cfg.createTime n + TTL_MINUTES } := by
  induction ls with
  | nil =>
    intro s s2 evs ip h hl
    simp only [scanList, Except.ok.injEq, Prod.mk.injEq] at h
    obtain ⟨hs, -⟩ := h
    subst hs
    exact Or.inl hl
  | cons l ls ih =>
    intro s s2 evs ip h hl
    cases h1 : scanLine cfg s l with
    | error e => simp [scanList, h1] at h
    | ok p =>
      obtain ⟨sm, evs1⟩ := p
      cases h2 : scanList cfg sm ls with
      | error e => simp [scanList, h1, h2] at h
      | ok q =>
        obtain ⟨s3, evs2⟩ := q
        simp only [scanList, h1, h2, Except.ok.injEq, Prod.mk.injEq] at h
        obtain ⟨hs, -⟩ := h
        subst hs
        obtain ⟨-, hcases⟩ := scanLine_spec h1
        rcases hcases with ⟨-, hrr, -⟩ | ⟨j, -, hnone, -, hbr⟩
        · exact ih h2 (by rw [hrr]; exact hl)
        · rcases hbr with ⟨rid, hc, -, hrr⟩ | ⟨-, -, hrr⟩
          · by_cases hj : j = ip
            · subst hj
              have hmem : lookupIp j sm.rules =
                  some { rule_id := rid, expires_at := cfg.createTime s.ncalls + TTL_MINUTES } := by
                rw [hrr]
                exact lookupIp_appended_self hnone
              exact Or.inr ⟨s.ncalls, rid, hc, scanList_frame h2 hmem⟩
            · have hm : lookupIp ip sm.rules = none := by
                rw [hrr, lookupIp_append_none hl]
                simp [lookupIp, hj]
              exact ih h2 hm
          · exact ih h2 (by rw [hrr]; exact hl)

theorem scanList_shape {cfg : Config} {ls : List (List Char)} :
    ∀ {s s2 : ScanSt} {evs : List Event} {ip : List Char} {rec : RuleRecord},
      scanList cfg s ls = Except.ok (s2, evs) →
      (ip, rec) ∈ s2.rules →
      (ip, rec) ∈ s.rules ∨
        ∃ n, cfg.createRes n = some rec.rule_id ∧
          rec.expires_at = cfg.createTime n + TTL_MINUTES := by
  induction ls with
  | nil =>
    intro s s2 evs ip rec h hm
    simp only [scanList, Except.ok.injEq, Prod.mk.injEq] at h
    obtain ⟨hs, -⟩ := h
    subst hs
    exact Or.inl hm
  | cons l ls ih =>
    intro s s2 evs ip rec h hm
    cases h1 : scanLine cfg s l with
    | error e => simp [scanList, h1] at h
    | ok p =>
      obtain ⟨sm, evs1⟩ := p
      cases h2 : scanList cfg sm ls with
      | error e => simp [scanList, h1, h2] at h
      | ok q =>
        obtain ⟨s3, evs2⟩ := q
        simp only [scanList, h1, h2, Except.ok.injEq, Prod.mk.injEq] at h
        obtain ⟨hs, -⟩ := h
        subst hs
        rcases ih h2 hm with hmid | hnew
        · obtain ⟨-, hcases⟩ := scanLine_spec h1
          rcases hcases with ⟨-, hrr, -⟩ | ⟨j, -, -, -, hbr⟩
          · rw [hrr] at hmid
            exact Or.inl hmid
          · rcases hbr with ⟨rid, hc, -, hrr⟩ | ⟨-, -, hrr⟩
            · rw [hrr] at hmid
              rcases List.mem_append.mp hmid with hml | hmr
              · exact Or.inl hml
              · simp only [List.mem_singleton, Prod.mk.injEq] at hmr
                refine Or.inr ⟨s.ncalls, ?_, ?_⟩
                · rw [hmr.2]
                  exact hc
                · rw [hmr.2]
            · rw [hrr] at hmid
              exact Or.inl hmid
        · exact Or.inr hnew

/-- Unfolding of a successful run into its prune and scan parts. -/
theorem main_run_spec {cfg : Config} {st : PersistedState} {r : MainResult}
    (h : main_run cfg st = Except.ok r) :
    ∃ s scanEvs,
      scanList cfg
          { rules := (prune cfg.now cfg.delOk st.rules).1,
            pos := if utf8Len cfg.content < st.last_position then 0 else st.last_position,
            ncalls := 0 }
          (splitLines (byteDrop cfg.content
            (if utf8Len cfg.content < st.last_position then 0 else st.last_position))) =
        Except.ok (s, scanEvs) ∧
      r.last_position = s.pos ∧ r.rules = s.rules ∧
      r.events = (prune cfg.now cfg.delOk st.rules).2 ++ scanEvs := by
  simp only [main_run] at h
  cases hs : scanList cfg
      { rules := (prune cfg.now cfg.delOk st.rules).1,
        pos := if utf8Len cfg.content < st.last_position then 0 else st.last_position,
        ncalls := 0 }
      (splitLines (byteDrop cfg.content
        (if utf8Len cfg.content < st.last_position then 0 else st.last_position))) with
  | error e => simp [hs] at h
  | ok p =>
    obtain ⟨s, scanEvs⟩ := p
    rw [hs] at h
    simp only [Except.ok.injEq] at h
    refine ⟨s, scanEvs, rfl, ?_, ?_, ?_⟩
    · rw [← h]
    · rw [← h]
    · rw [← h]

-- ── Lemmas: the file system and save_state ───────────────────────────────

theorem tmpName_ne (path : List Char) : tmpName path ≠ path := by
  intro h
  have hlen := congrArg List.length h
  simp only [tmpName, List.length_append] at hlen
  have h4 : tmpSuffix.length = 4 := rfl
  omega

theorem getFile_writeFile_self (fs : FSys) (p c : List Char) :
    getFile (writeFile fs p c) p = some c := by
  simp [getFile, writeFile]

theorem getFile_writeFile_other {q p : List Char} (fs : FSys) (c : List Char)
    (h : q ≠ p) : getFile (writeFile fs q c) p = getFile fs p := by
  simp [getFile, writeFile, h]

theorem getFile_removeFile_other {q p : List Char} (fs : FSys) (h : q ≠ p) :
    getFile (removeFile fs q) p = getFile fs p := by
  induction fs with
  | nil => rfl
  | cons hd tl ih =>
    obtain ⟨k, c⟩ := hd
    by_cases hk : k = q
    · subst hk
      simp only [removeFile, List.filter]
      rw [decide_eq_false (by simp)]
      simp only [getFile]
      rw [if_neg h]
      simpa [removeFile] using ih
    · simp only [removeFile, List.filter]
      rw [decide_eq_true (by simpa using hk)]
      simp only [getFile]
      by_cases hp : k = p
      · rw [if_pos hp, if_pos hp]
      · rw [if_neg hp, if_neg hp]
        simpa [removeFile] using ih

theorem dropToSlash_append {a : List Char} (b : List Char)
    (h : ∀ c ∈ a, c ≠ '/') : dropToSlash (a ++ b) = dropToSlash b := by
  induction a with
  | nil => rfl
  | cons c cs ih =>
    simp only [List.cons_append, dropToSlash]
    rw [if_neg (h c (List.mem_cons_self _ _))]
    exact ih (fun x hx => h x (List.mem_cons_of_mem _ hx))

theorem dirname_tmpName (path : List Char) :
    dirname (tmpName path) = dirname path := by
  unfold dirname tmpName
  rw [List.reverse_append]
  rw [dropToSlash_append _ (by decide)]

theorem noCreate_append_split {a b l₁ l₂ : List Event} {ev : Event}
    (ha : ∀ e ∈ a, isDelete e = true) (hcr : isCreate ev = true)
    (h : a ++ b = l₁ ++ ev :: l₂) :
    ∃ l₁p, b = l₁p ++ ev :: l₂ := by
  induction a generalizing l₁ with
  | nil => exact ⟨l₁, by simpa using h⟩
  | cons e a ih =>
    have he : isDelete e = true := ha e (List.mem_cons_self _ _)
    have h' : e :: (a ++ b) = l₁ ++ ev :: l₂ := by simpa using h
    rcases cons_eq_append_cons h' with ⟨-, hev, -⟩ | ⟨l₁p, -, ht⟩
    · subst hev
      cases e with
      | deleteCall rid ok => exact absurd hcr (by simp [isCreate])
      | lineRead l => exact absurd he (by simp [isDelete])
      | createCall j res => exact absurd he (by simp [isDelete])
    · exact ih (fun x hx => ha x (List.mem_cons_of_mem _ hx)) ht

-- ── The specification properties ─────────────────────────────────────────

/-- C1.  Deduplication of rule creation: in one run, an IP that is a
key of the rule map when scanning starts receives no create call at
all; once a create call for an IP succeeds, no later create call is
issued for it; hence at most one create call per IP succeeds while its
record is present in the map. -/
theorem claim_C1_dedup (cfg : Config) (st : PersistedState) (r : MainResult)
    (ip : List Char) (hok : main_run cfg st = Except.ok r) :
    (ip ∈ ((prune cfg.now cfg.delOk st.rules).1).map Prod.fst →
       createsFor ip r.events = 0) ∧
    (∀ l₁ l₂ : List Event, ∀ rid : List Char,
       r.events = l₁ ++ Event.createCall ip (some rid) :: l₂ →
       createsFor ip l₂ = 0) ∧
    succCreatesFor ip r.events ≤ 1 := by
  obtain ⟨s, scanEvs, hscan, -, -, hevents⟩ := main_run_spec hok
  have hpd : ∀ e ∈ (prune cfg.now cfg.delOk st.rules).2, isDelete e = true :=
    prune_events_delete
  refine ⟨?_, ?_, ?_⟩
  · intro hmem
    obtain ⟨rec, hrec⟩ := lookupIp_isSome_of_mem_keys hmem
    rw [hevents, createsFor_append, createsFor_of_all_delete hpd ip,
      scanList_creates_zero hscan hrec]
  · intro l₁ l₂ rid hsplit
    rw [hevents] at hsplit
    obtain ⟨l₁p, hsp⟩ := noCreate_append_split hpd (by simp [isCreate]) hsplit
    exact scanList_split_success hscan hsp
  · rw [hevents, succCreatesFor_append]
    have h0 : succCreatesFor ip (prune cfg.now cfg.delOk st.rules).2 = 0 := by
      have h1 := succCreatesFor_le_createsFor ip (prune cfg.now cfg.delOk st.rules).2
      have h2 := createsFor_of_all_delete hpd ip
      omega
    have h3 : succCreatesFor ip scanEvs ≤ 1 := scanList_succ_le_one hscan
    omega

/-- C1 witness: with an unexpired rule for ipA already present, a run
whose log contains a fresh login line for ipA issues no create call. -/
theorem claim_C1_dedup_witness : createsFor ipA rC1.events = 0 :=
  (claim_C1_dedup cfgC1 stC1 rC1 ipA rfl).1 (by decide)

/-- C3.  Offset accounting without rotation: the saved offset equals
the loaded offset plus the total UTF-8 byte length of the lines
consumed, and does not exceed the log size. -/
theorem claim_C3_offset (cfg : Config) (st : PersistedState) (r : MainResult)
    (hok : main_run cfg st = Except.ok r)
    (hnorot : st.last_position ≤ utf8Len cfg.content) :
    r.last_position = st.last_position + lineSum (lineReads r.events) ∧
    r.last_position ≤ utf8Len cfg.content := by
  obtain ⟨s, scanEvs, hscan, hpos, -, hevents⟩ := main_run_spec hok
  rw [if_neg (by omega)] at hscan
  have hreads : lineReads scanEvs = splitLines (byteDrop cfg.content st.last_position) :=
    scanList_lineReads hscan
  have hp : s.pos = st.last_position +
      lineSum (splitLines (byteDrop cfg.content st.last_position)) :=
    scanList_pos hscan
  constructor
  · rw [hpos, hevents, lineReads_append, lineReads_of_all_delete prune_events_delete,
      List.nil_append, hreads, hp]
  · rw [hpos, hp, lineSum_splitLines]
    have := byteDrop_bound cfg.content st.last_position hnorot
    omega

/-- C3 witness: one ASCII login line of 59 bytes from offset 0. -/
theorem claim_C3_offset_witness :
    rA.last_position = stA.last_position + lineSum (lineReads rA.events) ∧
    rA.last_position ≤ utf8Len cfgA.content :=
  claim_C3_offset cfgA stA rA rfl (by decide)

/-- C4.  Rotation recovery: when the file is smaller than the saved
offset, the whole file is processed from byte 0 and the saved offset
ends up equal to the file size. -/
theorem claim_C4_rotation (cfg : Config) (st : PersistedState) (r : MainResult)
    (hok : main_run cfg st = Except.ok r)
    (hrot : utf8Len cfg.content < st.last_position) :
    lineReads r.events = splitLines cfg.content ∧
    r.last_position = utf8Len cfg.content := by
  obtain ⟨s, scanEvs, hscan, hpos, -, hevents⟩ := main_run_spec hok
  rw [if_pos hrot, byteDrop_zero] at hscan
  constructor
  · rw [hevents, lineReads_append, lineReads_of_all_delete prune_events_delete,
      List.nil_append]
    exact scanList_lineReads hscan
  · rw [hpos, scanList_pos hscan]
    simp [lineSum_splitLines]

/-- C4 witness: saved offset 100 against a 59-byte file. -/
theorem claim_C4_rotation_witness :
    lineReads rA.events = splitLines cfgA.content ∧
    rA.last_position = utf8Len cfgA.content :=
  claim_C4_rotation cfgA stC4 rA rfl (by decide)

/-- C5.  Atomic persistence: the temporary file sits in the directory
of the target; any crash state before the rename (tmp file holding any
incomplete content) leaves the target byte-for-byte what it was; after a
complete save the target holds exactly the new content. -/
theorem claim_C5_atomic (fs : FSys) (path content mid : List Char) :
    dirname (tmpName path) = dirname path ∧
    getFile (save_state_crash path mid fs) path = getFile fs path ∧
    getFile (save_state path content fs) path = some content := by
  refine ⟨dirname_tmpName path, ?_, ?_⟩
  · exact getFile_writeFile_other fs mid (tmpName_ne path)
  · simp [save_state, save_state_crash, osReplace, getFile_writeFile_self]

/-- C8.  Fresh creation timestamp: every record in the saved state is
either carried over unchanged from the loaded state or was created by
the n-th create call, with expiry equal to the freshly
captured timestamp of that call plus the TTL (the scan oracle timestamps are
arbitrary and need not equal the invocation-start now). -/
theorem claim_C8_fresh_ttl (cfg : Config) (st : PersistedState) (r : MainResult)
    (ip : List Char) (rec : RuleRecord) (hok : main_run cfg st = Except.ok r)
    (hmem : (ip, rec) ∈ r.rules) :
    (ip, rec) ∈ st.rules ∨
    ∃ n, cfg.createRes n = some rec.rule_id ∧
      rec.expires_at = cfg.createTime n + TTL_MINUTES := by
  obtain ⟨s, scanEvs, hscan, -, hrules, -⟩ := main_run_spec hok
  rw [hrules] at hmem
  rcases scanList_shape hscan hmem with hin | hnew
  · exact Or.inl (prune_mem hin)
  · exact Or.inr hnew

/-- C8 witness: the rule created for ipA expires at the create-call
timestamp 50 plus the TTL, not at the invocation-start now of 10. -/
theorem claim_C8_fresh_ttl_witness :
    (ipA, { rule_id := ridR1, expires_at := 410 : RuleRecord }) ∈ stA.rules ∨
    ∃ n, cfgA.createRes n = some ridR1 ∧
      (410 : Int) = cfgA.createTime n + TTL_MINUTES :=
  claim_C8_fresh_ttl cfgA stA rA ipA { rule_id := ridR1, expires_at := 410 }
    rfl (by decide)

/-- C10.  Repeated logins never refresh the TTL: an IP that is a key
of the rule map when scanning starts keeps exactly its record (same
ruleId, same expiresAt) in the saved state, and no create call is
issued for it. -/
theorem claim_C10_no_refresh (cfg : Config) (st : PersistedState) (r : MainResult)
    (ip : List Char) (rec : RuleRecord) (hok : main_run cfg st = Except.ok r)
    (hpre : lookupIp ip (prune cfg.now cfg.delOk st.rules).1 = some rec) :
    lookupIp ip r.rules = some rec ∧ createsFor ip r.events = 0 := by
  obtain ⟨s, scanEvs, hscan, -, hrules, hevents⟩ := main_run_spec hok
  constructor
  · rw [hrules]
    exact scanList_frame hscan hpre
  · rw [hevents, createsFor_append,
      createsFor_of_all_delete prune_events_delete ip,
      scanList_creates_zero hscan hpre]

/-- C10 witness: the unexpired record for ipA survives a repeated
login line untouched. -/
theorem claim_C10_no_refresh_witness :
    lookupIp ipA rC1.rules = some { rule_id := ridR1, expires_at := 100 } ∧
    createsFor ipA rC1.events = 0 :=
  claim_C10_no_refresh cfgC1 stC1 rC1 ipA { rule_id := ridR1, expires_at := 100 }
    rfl rfl

/-- C2 counterexample: an expired rule for ipA is deleted successfully,
but the same IP logs in again later in the same run, so the saved rule
set does contain ipA — the claim that a successful deletion leaves the
IP absent from the saved rule set fails on this input. -/
theorem claim_C2_counterexample :
    stC2x.rules = [(ipA, { rule_id := ridR1, expires_at := 5 })] ∧
    (5 : Int) ≤ cfgC2x.now ∧
    cfgC2x.delOk ridR1 = true ∧
    main_run cfgC2x stC2x = Except.ok rC2x ∧
    lookupIp ipA rC2x.rules = some { rule_id := ridR9, expires_at := 410 } :=
  ⟨rfl, by decide, rfl, rfl, rfl⟩

/-- C2 (amended).  Expiry pruning: every delete call precedes every
line read; each loaded record with expiresAt less than or equal to now
gets a deletion attempt; on failure the record is retained completely
unchanged; on success the IP is removed from the rule set before
scanning, and it is absent from the saved set unless a new login for
it is observed in this very run, in which case a freshly created
record (new ruleId, new expiry) is saved; unexpired records are saved
unchanged. -/
theorem claim_C2_expiry (cfg : Config) (st : PersistedState) (r : MainResult)
    (ip : List Char) (rec : RuleRecord)
    (hnd : (st.rules.map Prod.fst).Nodup)
    (hok : main_run cfg st = Except.ok r)
    (hrec : lookupIp ip st.rules = some rec) :
    deletesBeforeReads r.events = true ∧
    (rec.expires_at ≤ cfg.now →
       Event.deleteCall rec.rule_id (cfg.delOk rec.rule_id) ∈ r.events ∧
       (cfg.delOk rec.rule_id = false → lookupIp ip r.rules = some rec) ∧
       (cfg.delOk rec.rule_id = true →
          lookupIp ip (prune cfg.now cfg.delOk st.rules).1 = none ∧
          (lookupIp ip r.rules = none ∨
            ∃ n rid, cfg.createRes n = some rid ∧
              lookupIp ip r.rules =
                some { rule_id := rid, expires_at := cfg.createTime n + TTL_MINUTES }))) ∧
    (¬ rec.expires_at ≤ cfg.now → lookupIp ip r.rules = some rec) := by
  obtain ⟨s, scanEvs, hscan, -, hrules, hevents⟩ := main_run_spec hok
  refine ⟨?_, ?_, ?_⟩
  · rw [hevents]
    exact deletesBeforeReads_append prune_events_delete (scanList_noDeletes hscan)
  · intro hexp
    refine ⟨?_, ?_, ?_⟩
    · rw [hevents]
      exact List.mem_append.mpr (Or.inl (prune_delete_mem hrec hexp))
    · intro hfail
      rw [hrules]
      exact scanList_frame hscan (prune_keep_failed hrec hexp hfail)
    · intro hsucc
      have hnone := prune_drop hnd hrec hexp hsucc
      refine ⟨hnone, ?_⟩
      rcases scanList_new hscan hnone with hres | ⟨n, rid, hc, hl⟩
      · exact Or.inl (by rw [hrules]; exact hres)
      · exact Or.inr ⟨n, rid, hc, by rw [hrules]; exact hl⟩
  · intro hexp
    rw [hrules]
    exact scanList_frame hscan (prune_keep_unexpired hrec hexp)

/-- C2 witness: an expired rule whose deletion fails is saved
completely unchanged, original expiry included. -/
theorem claim_C2_expiry_witness :
    lookupIp ipA rC2.rules = some { rule_id := ridR1, expires_at := 5 } :=
  ((claim_C2_expiry cfgC2 stC2 rC2 ipA { rule_id := ridR1, expires_at := 5 }
      (by decide) rfl rfl).2.1 (by decide)).2.1 rfl

/-- C6 evidence: a state file whose whole content is the digit 5
parses as a JSON number; the required-field membership test then
raises an uncaught TypeError instead of returning the default state,
so load is not total on corrupted-but-parseable files.  (An absent
file does fall back to the default.) -/
theorem claim_C6_bug :
    load_state FileRead.absent = Except.ok default_state ∧
    json_loads ("5".toList) = some (JsonValue.num 5) ∧
    load_state (FileRead.content ("5".toList)) = Except.error PyErr.typeError :=
  ⟨rfl, rfl, rfl⟩

/-- C7 evidence: a marker line whose bracketed payload parses fine but
carries a numeric requestIp makes the .split attribute access raise an
uncaught AttributeError, so extraction is not total. -/
theorem claim_C7_bug :
    isSubstring marker badLine = true ∧
    json_loads badPart = some (JsonValue.obj [(requestIpKey, JsonValue.num 123)]) ∧
    extract_login_ip badLine = Except.error PyErr.attributeError :=
  ⟨rfl, rfl, rfl⟩

-- ── Lemmas: the identifier chain of create_rule ──────────────────────────

theorem ruleIdChain_truthy_iff (data v : JsonValue) :
    (ruleIdChain data = Except.ok v ∧ truthy v = true) ↔
    ((∃ fields g, data = JsonValue.obj fields ∧
        lookupField dataKey fields = some (JsonValue.obj g) ∧
        lookupField ruleIdKey g = some v ∧ truthy v = true) ∨
     (∃ fields, data = JsonValue.obj fields ∧
        noTruthyDataRuleId fields = true ∧
        lookupField idKey fields = some v ∧ truthy v = true)) := by
  constructor
  · rintro ⟨hchain, htr⟩
    cases data with
    | null => simp [ruleIdChain, pyGet] at hchain
    | bool b => simp [ruleIdChain, pyGet] at hchain
    | num n => simp [ruleIdChain, pyGet] at hchain
    | str s => simp [ruleIdChain, pyGet] at hchain
    | arr xs => simp [ruleIdChain, pyGet] at hchain
    | obj fields =>
      cases hd : lookupField dataKey fields with
      | none =>
        simp only [ruleIdChain, pyGet, hd] at hchain
        simp only [lookupField, truthy, Bool.false_eq_true, if_false] at hchain
        cases hi : lookupField idKey fields with
        | none =>
          simp only [hi] at hchain
          have hv := Except.ok.inj hchain
          rw [← hv] at htr
          simp [truthy] at htr
        | some w =>
          simp only [hi] at hchain
          have hv := Except.ok.inj hchain
          subst hv
          exact Or.inr ⟨fields, rfl, by simp [noTruthyDataRuleId, hd], hi, htr⟩
      | some w =>
        cases w with
        | null => simp [ruleIdChain, pyGet, hd] at hchain
        | bool b => simp [ruleIdChain, pyGet, hd] at hchain
        | num n => simp [ruleIdChain, pyGet, hd] at hchain
        | str s => simp [ruleIdChain, pyGet, hd] at hchain
        | arr xs => simp [ruleIdChain, pyGet, hd] at hchain
        | obj g =>
          simp only [ruleIdChain, pyGet, hd] at hchain
          cases hg : lookupField ruleIdKey g with
          | none =>
            simp only [hg] at hchain
            simp only [truthy, Bool.false_eq_true, if_false] at hchain
            cases hi : lookupField idKey fields with
            | none =>
              simp only [hi] at hchain
              have hv := Except.ok.inj hchain
              rw [← hv] at htr
              simp [truthy] at htr
            | some w2 =>
              simp only [hi] at hchain
              have hv := Except.ok.inj hchain
              subst hv
              exact Or.inr ⟨fields, rfl, by simp [noTruthyDataRuleId, hd, hg], hi, htr⟩
          | some v0 =>
            simp only [hg] at hchain
            by_cases htr0 : truthy v0 = true
            · rw [if_pos htr0] at hchain
              have hv := Except.ok.inj hchain
              subst hv
              exact Or.inl ⟨fields, g, rfl, hd, hg, htr⟩
            · rw [if_neg htr0] at hchain
              cases hi : lookupField idKey fields with
              | none =>
                simp only [hi] at hchain
                have hv := Except.ok.inj hchain
                rw [← hv] at htr
                simp [truthy] at htr
              | some w2 =>
                simp only [hi] at hchain
                have hv := Except.ok.inj hchain
                subst hv
                refine Or.inr ⟨fields, rfl, ?_, hi, htr⟩
                simp only [noTruthyDataRuleId, hd, hg]
                simp only [Bool.not_eq_true] at htr0
                simp [htr0]
  · rintro (⟨fields, g, hdata, hd, hg, htr⟩ | ⟨fields, hdata, hnt, hi, htr⟩)
    · subst hdata
      refine ⟨?_, htr⟩
      simp only [ruleIdChain, pyGet, hd, hg, htr, if_true]
    · subst hdata
      refine ⟨?_, htr⟩
      cases hd : lookupField dataKey fields with
      | none =>
        simp only [ruleIdChain, pyGet, hd, lookupField, truthy,
          Bool.false_eq_true, if_false, hi]
      | some w =>
        cases w with
        | null => simp [noTruthyDataRuleId, hd] at hnt
        | bool b => simp [noTruthyDataRuleId, hd] at hnt
        | num n => simp [noTruthyDataRuleId, hd] at hnt
        | str s => simp [noTruthyDataRuleId, hd] at hnt
        | arr xs => simp [noTruthyDataRuleId, hd] at hnt
        | obj g =>
          simp only [noTruthyDataRuleId, hd] at hnt
          simp only [ruleIdChain, pyGet, hd]
          cases hg : lookupField ruleIdKey g with
          | none =>
            simp only [hg, truthy, Bool.false_eq_true, if_false, hi]
          | some v0 =>
            simp only [hg] at hnt
            simp only [hg, hi]
            have hfalse : ¬ truthy v0 = true := by
              intro habs
              rw [habs] at hnt
              simp at hnt
            rw [if_neg hfalse]

/-- C9 counterexample: status 202 is 2xx and the body carries a
data.ruleId identifier, yet create_rule reports failure; the same body
succeeds under status 200.  The code accepts exactly 200 and 201, not
all of 2xx. -/
theorem claim_C9_counterexample :
    (200 ≤ 202 ∧ 202 < 300) ∧
    bodyIdentifier body9 (JsonValue.str ("abc".toList)) ∧
    create_rule (HttpOutcome.response 202 body9) = none ∧
    create_rule (HttpOutcome.response 200 body9) = some ("abc".toList) := by
  refine ⟨by decide, ?_, rfl, rfl⟩
  exact Or.inl
    ⟨[(dataKey, JsonValue.obj [(ruleIdKey, JsonValue.str ("abc".toList))])],
      [(ruleIdKey, JsonValue.str ("abc".toList))], rfl, rfl, rfl, rfl⟩

/-- C9 (amended).  Create-call success criterion: a raised exception
(timeout or transport error) and any status other than exactly 200 or
201 yield failure; under status 200 or 201 the call succeeds if and
only if the body parses to an object yielding a truthy identifier
through the ordered two-shape check — nested data.ruleId first (a
non-object data field aborts with failure), else top-level id — and
the returned identifier is its string rendering; a failed create call
adds no record in the scan loop. -/
theorem claim_C9_criterion :
    create_rule HttpOutcome.exn = none ∧
    (∀ stat b, stat ≠ 200 → stat ≠ 201 →
       create_rule (HttpOutcome.response stat b) = none) ∧
    (∀ stat b rid, stat = 200 ∨ stat = 201 →
       (create_rule (HttpOutcome.response stat b) = some rid ↔
         ∃ v, rid = pyStr v ∧ bodyIdentifier b v)) ∧
    (∀ cfg stS line s2 evs, cfg.createRes stS.ncalls = none →
       scanLine cfg stS line = Except.ok (s2, evs) → s2.rules = stS.rules) := by
  refine ⟨rfl, ?_, ?_, ?_⟩
  · intro stat b h0 h1
    simp only [create_rule]
    rw [if_neg (fun hor => hor.elim h0 h1)]
  · intro stat b rid hst
    constructor
    · intro h
      cases hj : json_loads b with
      | none => simp [create_rule, if_pos hst, hj] at h
      | some data =>
        simp only [create_rule, if_pos hst, hj] at h
        cases hc : ruleIdChain data with
        | error e => simp [hc] at h
        | ok v =>
          simp only [hc] at h
          by_cases htr : truthy v = true
          · rw [if_pos htr] at h
            have hrid := (Option.some.inj h).symm
            have hshape := (ruleIdChain_truthy_iff data v).mp ⟨hc, htr⟩
            refine ⟨v, hrid, ?_⟩
            rcases hshape with ⟨fields, g, hdata, hdd, hgg, htt⟩ |
              ⟨fields, hdata, hnt, hii, htt⟩
            · exact Or.inl ⟨fields, g, by rw [hj, hdata], hdd, hgg, htt⟩
            · exact Or.inr ⟨fields, by rw [hj, hdata], hnt, hii, htt⟩
          · rw [if_neg htr] at h
            exact absurd h (by simp)
    · rintro ⟨v, hrid, hbody⟩
      rcases hbody with ⟨fields, g, hjs, hdd, hgg, htt⟩ | ⟨fields, hjs, hnt, hii, htt⟩
      · have hchain := (ruleIdChain_truthy_iff (JsonValue.obj fields) v).mpr
          (Or.inl ⟨fields, g, rfl, hdd, hgg, htt⟩)
        simp only [create_rule, if_pos hst, hjs, hchain.1, hchain.2, if_true, hrid]
      · have hchain := (ruleIdChain_truthy_iff (JsonValue.obj fields) v).mpr
          (Or.inr ⟨fields, rfl, hnt, hii, htt⟩)
        simp only [create_rule, if_pos hst, hjs, hchain.1, hchain.2, if_true, hrid]
  · intro cfg stS line s2 evs hnone h
    obtain ⟨-, hcases⟩ := scanLine_spec h
    rcases hcases with ⟨-, hrr, -⟩ | ⟨j, -, -, -, hbr⟩
    · exact hrr
    · rcases hbr with ⟨rid, hc, -, -⟩ | ⟨-, -, hrr⟩
      · rw [hnone] at hc
        exact Option.noConfusion hc
      · exact hrr

/-- C9 witness: a 404 response fails regardless of body. -/
theorem claim_C9_criterion_witness :
    create_rule (HttpOutcome.response 404 body9) = none :=
  claim_C9_criterion.2.1 404 body9 (by decide) (by decide)

end AuthApi
